import Mathlib

/-!
Shallow embedding of we.texturing.TileCache
(src/wedemo/ui/tileproviderselector.js, second file section).

The cache owns a map from tile keys to tiles (goog.structs.Map tileMap_),
an array of tiles awaiting load (loadRequests_), a soft capacity
(targetSize) and a provider-reset marker (tileProviderResetTime_).

Tiles are mutable JS objects shared between the map and the queue; we model
the object heap as a list of Tile records (a tile identity is its index in
that list, assigned at allocation), and the map and queue hold tile ids.
Disposing a tile releases its payload only, so the heap entry stays (the
provider may still hold a reference, as in the stale-completion path).
Timestamps (goog.now()) are modelled as integers.
-/

namespace WE

/-- Tile state enum, we.texturing.Tile.State. -/
inductive TileState where
  | preparing
  | loading
  | loaded
  | error
deriving DecidableEq, Repr

/-- A tile key: the (zoom, x, y) triple.  Modelled from the spec:
we.texturing.Tile.createKey is outside src/; the spec requires only a pure,
stable, collision-free function of (zoom, x, y), which the triple itself is. -/
abbrev Key := Nat × Int × Int

/-- Modelled from the spec: the key function (zoom, x, y) -> key. -/
def createKey (zoom : Nat) (x y : Int) : Key := (zoom, x, y)

/-- A we.texturing.Tile record: coordinates, request time (priority) and
state.  Modelled from the spec where the Tile class is outside src/: a tile
is created in Preparing state carrying the requestTime it was created with. -/
structure Tile where
  zoom : Nat
  x : Int
  y : Int
  requestTime : Int
  state : TileState
deriving DecidableEq, Repr

instance : Inhabited Tile := ⟨⟨0, 0, 0, 0, TileState.preparing⟩⟩

/-- tile.getKey(): the key of the tile's own coordinates. -/
def Tile.getKey (t : Tile) : Key := createKey t.zoom t.x t.y

/-- The state of a we.texturing.TileCache instance.
tiles is the heap of allocated Tile objects (ids are indices);
tileMap is the goog.structs.Map tileMap_ as an association list in
insertion order; loadRequests is the loadRequests_ array. -/
structure TileCache where
  tiles : List Tile
  tileMap : List (Key × Nat)
  loadRequests : List Nat
  targetSize : Nat
  tileProviderResetTime : Int
deriving DecidableEq, Repr

/-- Dereference a tile id in the heap. -/
def tileAt (c : TileCache) (id : Nat) : Tile := c.tiles.getD id default

/-- goog.structs.Map.prototype.set: replace the value at an existing key,
else append the new binding. -/
def mapSet (m : List (Key × Nat)) (k : Key) (v : Nat) : List (Key × Nat) :=
  if (m.lookup k).isSome then
    m.map (fun p => if p.1 = k then (k, v) else p)
  else m ++ [(k, v)]

/-- goog.structs.Map.prototype.remove: drop the binding at the key. -/
def mapRemove (m : List (Key × Nat)) (k : Key) : List (Key × Nat) :=
  m.filter (fun p => p.1 ≠ k)

/-- we.texturing.TileCache.prototype.getTileFromCache: this.tileMap_.get(key). -/
def getTileFromCache (c : TileCache) (key : Key) : Option Nat :=
  c.tileMap.lookup key

/-- we.texturing.TileCache.prototype.setTileProvider: records goog.now() as
the provider-reset marker, rebinds the provider and its callback, clears the
map and the load queue.  The provider handle itself is passed per call to
processLoadRequests. -/
def setTileProvider (c : TileCache) (now : Int) : TileCache :=
  { c with tileProviderResetTime := now, tileMap := [], loadRequests := [] }

/-- The constructor we.texturing.TileCache: empty map, empty queue,
targetSize 1024, then setTileProvider (which records now). -/
def newTileCache (now : Int) : TileCache :=
  setTileProvider { tiles := [], tileMap := [], loadRequests := [],
                    targetSize := 1024, tileProviderResetTime := 0 } now

/-- we.texturing.TileCache.prototype.retrieveTile: on a hit the tile's
requestTime is assigned the argument (tile.requestTime = requestTime); on a
miss a fresh Preparing tile is allocated, inserted at its key and pushed onto
loadRequests_.  Returns the updated cache and the returned tile's id. -/
def retrieveTile (c : TileCache) (zoom : Nat) (x y : Int) (requestTime : Int) :
    TileCache × Nat :=
  let key := createKey zoom x y
  match getTileFromCache c key with
  | some id =>
      ({ c with tiles := c.tiles.set id { tileAt c id with requestTime := requestTime } }, id)
  | none =>
      let id := c.tiles.length
      let tile : Tile := ⟨zoom, x, y, requestTime, TileState.preparing⟩
      ({ c with tiles := c.tiles ++ [tile],
                tileMap := mapSet c.tileMap key id,
                loadRequests := c.loadRequests ++ [id] }, id)

/-- we.texturing.TileCache.prototype.updateRequestTime: if the key is in the
cache, assign the tile's requestTime (unconditionally); otherwise no effect. -/
def updateRequestTime (c : TileCache) (key : Key) (requestTime : Int) : TileCache :=
  match getTileFromCache c key with
  | some id =>
      { c with tiles := c.tiles.set id { tileAt c id with requestTime := requestTime } }
  | none => c

/-- we.texturing.TileCache.prototype.tileLoaded_: if the tile's requestTime
predates the provider-reset marker, force Error state and return without
calling tileCachedHandler; otherwise call tileCachedHandler.  The returned
Bool records whether tileCachedHandler was invoked. -/
def tileLoaded (c : TileCache) (id : Nat) : TileCache × Bool :=
  if (tileAt c id).requestTime < c.tileProviderResetTime then
    ({ c with tiles := c.tiles.set id { tileAt c id with state := TileState.error } }, false)
  else
    (c, true)

/-- The comparator used by cleanCache and processLoadRequests:
tile1.requestTime - tile2.requestTime, i.e. ascending requestTime.
goog.array.sort leaves the order of requestTime ties engine-defined, so any
sort by this comparator is a faithful model; insertion sort is used because
it is structurally recursive. -/
def sortByRequestTime (tiles : List Tile) (ids : List Nat) : List Nat :=
  ids.insertionSort (fun a b =>
    (tiles.getD a default).requestTime ≤ (tiles.getD b default).requestTime)

/-- The while loop of cleanCache over the sorted cleanable list: while the
map is over targetSize and candidates remain, shift a candidate, remove it
from loadRequests_ when Preparing, and remove its key from the map.
Returns the final map, the final queue, and the removed ids in order. -/
def cleanLoop (tiles : List Tile) (targetSize : Nat) :
    List (Key × Nat) → List Nat → List Nat → List (Key × Nat) × List Nat × List Nat
  | m, q, [] => (m, q, [])
  | m, q, id :: rest =>
      if m.length > targetSize then
        let q1 := if (tiles.getD id default).state = TileState.preparing
                  then q.erase id else q
        let m1 := mapRemove m (tiles.getD id default).getKey
        let r := cleanLoop tiles targetSize m1 q1 rest
        (r.1, r.2.1, id :: r.2.2)
      else (m, q, [])

/-- we.texturing.TileCache.prototype.cleanCache: filter the map's values to
those in state LOADED, PREPARING or ERROR, sort them ascending by
requestTime, then remove from the front while the map is over targetSize. -/
def cleanCache (c : TileCache) : TileCache :=
  let cleanable := (c.tileMap.map (fun p => p.2)).filter (fun id =>
    (tileAt c id).state = TileState.loaded ∨
    (tileAt c id).state = TileState.preparing ∨
    (tileAt c id).state = TileState.error)
  let sorted := sortByRequestTime c.tiles cleanable
  let r := cleanLoop c.tiles c.targetSize c.tileMap c.loadRequests sorted
  { c with tileMap := r.1, loadRequests := r.2.1 }

/-- The removed-id trace of cleanCache, for stating eviction order. -/
def cleanCacheRemoved (c : TileCache) : List Nat :=
  let cleanable := (c.tileMap.map (fun p => p.2)).filter (fun id =>
    (tileAt c id).state = TileState.loaded ∨
    (tileAt c id).state = TileState.preparing ∨
    (tileAt c id).state = TileState.error)
  let sorted := sortByRequestTime c.tiles cleanable
  (cleanLoop c.tiles c.targetSize c.tileMap c.loadRequests sorted).2.2

/-- The while loop of purgeNotLoadedTiles: while the queue head's
requestTime is below the cutoff, shift it and remove its key from the map.
Returns the final queue, the final map, and the removed ids in order. -/
def purgeLoop (tiles : List Tile) (cutoff : Int) :
    List Nat → List (Key × Nat) → List Nat × List (Key × Nat) × List Nat
  | [], m => ([], m, [])
  | id :: rest, m =>
      if (tiles.getD id default).requestTime < cutoff then
        let r := purgeLoop tiles cutoff rest (mapRemove m (tiles.getD id default).getKey)
        (r.1, r.2.1, id :: r.2.2)
      else (id :: rest, m, [])

/-- we.texturing.TileCache.prototype.purgeNotLoadedTiles: cutoff is
goog.now() - timeLimit; tiles are shifted from the queue head while older
than the cutoff, each being removed from the map as well. -/
def purgeNotLoadedTiles (c : TileCache) (now timeLimit : Int) : TileCache :=
  let r := purgeLoop c.tiles (now - timeLimit) c.loadRequests c.tileMap
  { c with loadRequests := r.1, tileMap := r.2.1 }

/-- The removed-id trace of purgeNotLoadedTiles. -/
def purgeRemoved (c : TileCache) (now timeLimit : Int) : List Nat :=
  (purgeLoop c.tiles (now - timeLimit) c.loadRequests c.tileMap).2.2

/-- The for loop of processLoadRequests.  fuel is the remaining iteration
count n - i, callIdx numbers the loadTile calls of this round; each
iteration pops the queue tail and offers it to the provider.  The provider's
loadTile decision is modelled by the function accept of the call index and
the tile id; on acceptance the tile transitions to Loading (modelled from
the spec: dispatch success moves Preparing to Loading inside the provider,
which is outside src/), on decline the tile is pushed back.  Returns the
final heap, the final queue, and the trace of (offered tile, decision). -/
def processLoop (accept : Nat → Nat → Bool) :
    Nat → Nat → List Tile → List Nat → List Tile × List Nat × List (Nat × Bool)
  | 0, _, tiles, q => (tiles, q, [])
  | fuel + 1, callIdx, tiles, q =>
      match q.getLast? with
      | none => (tiles, q, [])
      | some id =>
          if accept callIdx id then
            let tiles1 := tiles.set id { tiles.getD id default with state := TileState.loading }
            let r := processLoop accept fuel (callIdx + 1) tiles1 q.dropLast
            (r.1, r.2.1, (id, true) :: r.2.2)
          else
            let r := processLoop accept fuel (callIdx + 1) tiles (q.dropLast ++ [id])
            (r.1, r.2.1, (id, false) :: r.2.2)

/-- we.texturing.TileCache.prototype.processLoadRequests: sort the queue
ascending by requestTime, compute
n = min(queueLength, tilesToBeLoading - provider.loadingTileCounter), then
n times pop the tail, offer it to the provider, and push it back if the
provider declines.  Nat subtraction makes a non-positive bound run the loop
zero times, exactly as the JS for loop does on a negative n. -/
def processLoadRequests (c : TileCache) (accept : Nat → Nat → Bool)
    (loadingTileCounter : Nat) (tilesToBeLoading : Nat) :
    TileCache × List (Nat × Bool) :=
  let q := sortByRequestTime c.tiles c.loadRequests
  let n := min q.length (tilesToBeLoading - loadingTileCounter)
  let r := processLoop accept n 0 c.tiles q
  ({ c with tiles := r.1, loadRequests := r.2.1 }, r.2.2)

/-- A sequence of retrieveTile calls on a fixed (zoom, x, y), returning the
final cache and the list of returned tile ids, call by call. -/
def retrieveSeq (c : TileCache) (zoom : Nat) (x y : Int) :
    List Int → TileCache × List Nat
  | [] => (c, [])
  | rt :: rest =>
      let r := retrieveTile c zoom x y rt
      let s := retrieveSeq r.1 zoom x y rest
      (s.1, r.2 :: s.2)

/-- The provider's decision on the last loadTile call made for tile t in a
dispatch trace, if any: later calls override earlier ones. -/
def lastResponse (tr : List (Nat × Bool)) (t : Nat) : Option Bool :=
  match tr with
  | [] => none
  | (a, b) :: rest =>
      match lastResponse rest t with
      | some r => some r
      | none => if a = t then some b else none

/-- Map well-formedness: every binding points at an allocated tile and is
stored under that tile's own key, and keys are unique. -/
def MapOK (tiles : List Tile) (m : List (Key × Nat)) : Prop :=
  (∀ p ∈ m, p.2 < tiles.length ∧ (tiles.getD p.2 default).getKey = p.1) ∧
  (m.map Prod.fst).Nodup

/-- Queue well-formedness: every queued id is an allocated tile in Preparing
state whose key resolves to it in the map, and the queue has no duplicates. -/
def QueueOK (tiles : List Tile) (m : List (Key × Nat)) (q : List Nat) : Prop :=
  (∀ id ∈ q, id < tiles.length ∧
    (tiles.getD id default).state = TileState.preparing ∧
    m.lookup ((tiles.getD id default).getKey) = some id) ∧
  q.Nodup

/-- Full cache well-formedness. -/
def WF (c : TileCache) : Prop :=
  MapOK c.tiles c.tileMap ∧ QueueOK c.tiles c.tileMap c.loadRequests

instance (tiles : List Tile) (m : List (Key × Nat)) : Decidable (MapOK tiles m) := by
  unfold MapOK; infer_instance

instance (tiles : List Tile) (m : List (Key × Nat)) (q : List Nat) :
    Decidable (QueueOK tiles m q) := by
  unfold QueueOK; infer_instance

instance (c : TileCache) : Decidable (WF c) := by
  unfold WF; infer_instance

/-- One public cache operation, as in the claim about reachable states. -/
inductive CacheStep : TileCache → TileCache → Prop where
  | retrieve (c : TileCache) (zoom : Nat) (x y rt : Int) :
      CacheStep c (retrieveTile c zoom x y rt).1
  | update (c : TileCache) (key : Key) (rt : Int) :
      CacheStep c (updateRequestTime c key rt)
  | clean (c : TileCache) : CacheStep c (cleanCache c)
  | purge (c : TileCache) (now timeLimit : Int) :
      CacheStep c (purgeNotLoadedTiles c now timeLimit)
  | processLoads (c : TileCache) (accept : Nat → Nat → Bool) (counter ttbl : Nat) :
      CacheStep c (processLoadRequests c accept counter ttbl).1
  | setProvider (c : TileCache) (now : Int) :
      CacheStep c (setTileProvider c now)

/-- A cache state reachable from a freshly constructed cache by any sequence
of the public operations. -/
def Reachable (c : TileCache) : Prop :=
  ∃ t0 : Int, Relation.ReflTransGen CacheStep (newTileCache t0) c

/-- Concrete cache with three Loaded tiles of requestTimes 1, 2, 3 and
targetSize 2 (the caller-adjustable public field), as in the spec scenario. -/
def cEx3 : TileCache :=
  { tiles := [⟨0, 0, 0, 1, TileState.loaded⟩,
              ⟨0, 0, 1, 2, TileState.loaded⟩,
              ⟨0, 1, 0, 3, TileState.loaded⟩],
    tileMap := [((0, 0, 0), 0), ((0, 0, 1), 1), ((0, 1, 0), 2)],
    loadRequests := [],
    targetSize := 2,
    tileProviderResetTime := 0 }

/-- Concrete cache with two Preparing tiles queued, requestTimes 5 then 3. -/
def cExQ : TileCache :=
  (retrieveTile (retrieveTile (newTileCache 0) 1 2 3 5).1 4 0 0 3).1

/-! ## Helper lemmas -/

theorem getD_set_self {α : Type} (l : List α) (i : Nat) (a d : α)
    (h : i < l.length) : (l.set i a).getD i d = a := by
  simp [List.getD_eq_getElem?_getD, List.getElem?_set, h]

theorem getD_set_ne {α : Type} (l : List α) (i j : Nat) (a d : α)
    (h : i ≠ j) : (l.set i a).getD j d = l.getD j d := by
  simp [List.getD_eq_getElem?_getD, List.getElem?_set, h]

theorem getD_concat_self {α : Type} (l : List α) (a d : α) :
    (l ++ [a]).getD l.length d = a := by
  simp [List.getD_eq_getElem?_getD, List.getElem?_concat_length]

theorem lookup_mem {m : List (Key × Nat)} {k : Key} {v : Nat}
    (h : m.lookup k = some v) : (k, v) ∈ m := by
  induction m with
  | nil => simp [List.lookup] at h
  | cons p rest ih =>
      obtain ⟨k1, v1⟩ := p
      simp only [List.lookup] at h
      by_cases hk : k = k1
      · subst hk; simp at h; subst h; exact List.mem_cons_self _ _
      · have : (k == k1) = false := beq_false_of_ne hk
        rw [this] at h
        exact List.mem_cons_of_mem _ (ih h)

theorem lookup_eq_none_iff {m : List (Key × Nat)} {k : Key} :
    m.lookup k = none ↔ ∀ p ∈ m, p.1 ≠ k := by
  induction m with
  | nil => simp [List.lookup]
  | cons p rest ih =>
      obtain ⟨k1, v1⟩ := p
      simp only [List.lookup]
      by_cases hk : k = k1
      · subst hk; simp
      · have : (k == k1) = false := beq_false_of_ne hk
        rw [this]
        simp only [ih, List.mem_cons]
        constructor
        · rintro h p (rfl | hp)
          · exact fun he => hk he.symm
          · exact h p hp
        · intro h p hp; exact h p (Or.inr hp)

theorem mem_lookup {m : List (Key × Nat)} (hk : (m.map Prod.fst).Nodup)
    {k : Key} {v : Nat} (h : (k, v) ∈ m) : m.lookup k = some v := by
  induction m with
  | nil => simp at h
  | cons p rest ih =>
      obtain ⟨k1, v1⟩ := p
      simp only [List.map_cons, List.nodup_cons] at hk
      rcases List.mem_cons.1 h with h1 | h1
      · obtain ⟨rfl, rfl⟩ := Prod.mk.injEq .. ▸ h1
        simp [List.lookup]
      · have hne : k ≠ k1 := by
          rintro rfl
          exact hk.1 (List.mem_map.2 ⟨(k, v), h1, rfl⟩)
        simp only [List.lookup, beq_false_of_ne hne]
        exact ih hk.2 h1

/-! ## C9 -/

/-- C9: updateRequestTime on an absent key is a no-op: the whole cache state
(store, queue, every tile) is returned unchanged. -/
theorem C9_updateRequestTime_absent_noop (c : TileCache) (key : Key) (rt : Int)
    (h : getTileFromCache c key = none) : updateRequestTime c key rt = c := by
  unfold updateRequestTime
  rw [h]

theorem C9_witness :
    updateRequestTime cExQ (createKey 9 9 9) 7 = cExQ :=
  C9_updateRequestTime_absent_noop cExQ (createKey 9 9 9) 7 (by decide)

/-! ## C2 -/

theorem tileLoaded_stale {c : TileCache} {id : Nat} (hid : id < c.tiles.length)
    (h : (tileAt c id).requestTime < c.tileProviderResetTime) :
    (tileAt (tileLoaded c id).1 id).state = TileState.error ∧
    (tileLoaded c id).2 = false := by
  have h2 : (c.tiles.getD id default).requestTime < c.tileProviderResetTime := h
  constructor
  · simp only [tileLoaded, tileAt]
    rw [if_pos h2]
    simp [List.getD_eq_getElem?_getD, List.getElem?_set, hid]
  · simp only [tileLoaded, tileAt]
    rw [if_pos h2]

theorem tileLoaded_fresh {c : TileCache} {id : Nat}
    (h : c.tileProviderResetTime ≤ (tileAt c id).requestTime) :
    (tileLoaded c id).1 = c ∧ (tileLoaded c id).2 = true := by
  have hn : ¬ (c.tiles.getD id default).requestTime < c.tileProviderResetTime :=
    not_lt.2 h
  constructor
  · simp only [tileLoaded, tileAt]
    rw [if_neg hn]
  · simp only [tileLoaded, tileAt]
    rw [if_neg hn]

/-- C2: after setTileProvider records the reset marker, a provider
completion for a live tile whose requestTime is strictly below the marker
forces the tile into Error state and does not invoke tileCachedHandler, and
a completion whose requestTime is at or above the marker invokes
tileCachedHandler and leaves the cache unchanged. -/
theorem C2_stale_result_rejection (c : TileCache) (now : Int) (id : Nat)
    (hid : id < c.tiles.length) :
    (setTileProvider c now).tileProviderResetTime = now ∧
    ((tileAt (setTileProvider c now) id).requestTime < now →
      (tileAt (tileLoaded (setTileProvider c now) id).1 id).state = TileState.error ∧
      (tileLoaded (setTileProvider c now) id).2 = false) ∧
    (now ≤ (tileAt (setTileProvider c now) id).requestTime →
      (tileLoaded (setTileProvider c now) id).1 = setTileProvider c now ∧
      (tileLoaded (setTileProvider c now) id).2 = true) := by
  refine ⟨rfl, ?_, ?_⟩
  · intro hlt
    exact tileLoaded_stale (c := setTileProvider c now) hid hlt
  · intro hge
    exact tileLoaded_fresh (c := setTileProvider c now) hge

theorem C2_witness :
    (tileAt (tileLoaded (setTileProvider cExQ 100) 0).1 0).state = TileState.error ∧
    (tileLoaded (setTileProvider cExQ 100) 0).2 = false :=
  (C2_stale_result_rejection cExQ 100 0 (by decide)).2.1 (by decide)

/-! ## retrieveTile case equations -/

theorem retrieveTile_hit {c : TileCache} {zoom : Nat} {x y : Int} {id : Nat}
    (h : getTileFromCache c (createKey zoom x y) = some id) (rt : Int) :
    retrieveTile c zoom x y rt =
      ({ c with tiles := c.tiles.set id { tileAt c id with requestTime := rt } }, id) := by
  simp [retrieveTile, h]

theorem mapSet_absent {m : List (Key × Nat)} {k : Key}
    (h : m.lookup k = none) (v : Nat) : mapSet m k v = m ++ [(k, v)] := by
  simp [mapSet, h]

theorem retrieveTile_miss {c : TileCache} {zoom : Nat} {x y : Int}
    (h : getTileFromCache c (createKey zoom x y) = none) (rt : Int) :
    retrieveTile c zoom x y rt =
      ({ c with tiles := c.tiles ++ [⟨zoom, x, y, rt, TileState.preparing⟩],
                tileMap := c.tileMap ++ [(createKey zoom x y, c.tiles.length)],
                loadRequests := c.loadRequests ++ [c.tiles.length] },
       c.tiles.length) := by
  simp [retrieveTile, h, mapSet_absent h]

/-! ## C7 -/

/-- C7 counterexample: a tile retrieved with requestTime 5 has its
requestTime lowered to 3 by updateRequestTime, so the cache does decrease a
present tile's requestTime. -/
theorem C7_counterexample :
    (tileAt (retrieveTile (newTileCache 0) 1 2 3 5).1 0).requestTime = 5 ∧
    (tileAt (updateRequestTime (retrieveTile (newTileCache 0) 1 2 3 5).1
        (createKey 1 2 3) 3) 0).requestTime = 3 ∧ (3 : Int) < 5 := by decide

/-- C7 amended: retrieveTile on an existing key and updateRequestTime on a
present key assign the tile's requestTime to exactly the argument,
unconditionally — which can lower it as well as raise it. -/
theorem C7_requestTime_assigned (c : TileCache) (zoom : Nat) (x y : Int)
    (rt : Int) (id : Nat)
    (h : getTileFromCache c (createKey zoom x y) = some id)
    (hid : id < c.tiles.length) :
    (tileAt (updateRequestTime c (createKey zoom x y) rt) id).requestTime = rt ∧
    (tileAt (retrieveTile c zoom x y rt).1 id).requestTime = rt := by
  constructor
  · unfold updateRequestTime
    rw [show getTileFromCache c (createKey zoom x y) = some id from h]
    simp [tileAt, List.getD_eq_getElem?_getD, List.getElem?_set, hid]
  · rw [retrieveTile_hit h rt]
    simp [tileAt, List.getD_eq_getElem?_getD, List.getElem?_set, hid]

theorem C7_witness :
    (tileAt (updateRequestTime cExQ (createKey 1 2 3) 9) 0).requestTime = 9 ∧
    (tileAt (retrieveTile cExQ 1 2 3 9).1 0).requestTime = 9 :=
  C7_requestTime_assigned cExQ 1 2 3 9 0 (by decide) (by decide)

/-! ## C1 -/

/-- C1 counterexample: two retrieveTile calls on the same key with
requestTimes 5 then 3 leave the tile's requestTime at 3, not at the maximum
5: a later call with an older timestamp overwrites the newer one. -/
theorem C1_counterexample :
    (tileAt (retrieveSeq (newTileCache 0) 1 2 3 [5, 3]).1 0).requestTime = 3 ∧
    max (5 : Int) 3 = 5 ∧ (3 : Int) ≠ 5 := by decide

theorem retrieveSeq_hit (zoom : Nat) (x y : Int) (rts : List Int) :
    ∀ (c : TileCache) (id : Nat),
    getTileFromCache c (createKey zoom x y) = some id → id < c.tiles.length →
    (retrieveSeq c zoom x y rts).1.tiles.length = c.tiles.length ∧
    (retrieveSeq c zoom x y rts).1.tileMap = c.tileMap ∧
    (∀ i ∈ (retrieveSeq c zoom x y rts).2, i = id) ∧
    (tileAt (retrieveSeq c zoom x y rts).1 id).requestTime =
      rts.getLastD (tileAt c id).requestTime := by
  induction rts with
  | nil =>
      intro c id h hid
      exact ⟨rfl, rfl, by simp [retrieveSeq], by simp [retrieveSeq, List.getLastD]⟩
  | cons rt rest ih =>
      intro c id h hid
      have hr := retrieveTile_hit h rt
      simp only [retrieveSeq, hr]
      have h1 : getTileFromCache
          { c with tiles := c.tiles.set id { tileAt c id with requestTime := rt } }
          (createKey zoom x y) = some id := h
      have hid1 : id <
          ({ c with tiles := c.tiles.set id { tileAt c id with requestTime := rt } } :
            TileCache).tiles.length := by
        simpa using hid
      obtain ⟨hlen, hmap, hids, hrt⟩ := ih _ id h1 hid1
      refine ⟨by simpa using hlen, hmap, ?_, ?_⟩
      · intro i hi
        rcases List.mem_cons.1 hi with rfl | hi
        · rfl
        · exact hids i hi
      · rw [hrt, List.getLastD_cons]
        have : (tileAt { c with
            tiles := c.tiles.set id { tileAt c id with requestTime := rt } } id).requestTime
            = rt := by
          simp [tileAt, List.getD_eq_getElem?_getD, List.getElem?_set, hid]
        rw [this]

theorem getLastD_cons_getLast {α : Type} (a : α) (l : List α)
    (h : a :: l ≠ []) : l.getLastD a = (a :: l).getLast h := by
  have h1 := List.getLast?_eq_getLast (a :: l) h
  have h2 : (a :: l).getLast? = some (l.getLast?.getD a) := List.getLast?_cons
  rw [h1] at h2
  injection h2 with h3
  rw [List.getLastD_eq_getLast?]
  exact h3.symm

/-- C1 amended: for a sequence of retrieveTile calls on a fresh (zoom,x,y)
key, exactly one tile object is created, every call returns that same tile,
and afterwards the tile's requestTime equals the requestTime of the LAST
call — not the maximum over the calls, since each hit overwrites it. -/
theorem C1_identity_last_requestTime (c : TileCache) (zoom : Nat) (x y : Int)
    (rts : List Int) (hne : rts ≠ [])
    (habs : getTileFromCache c (createKey zoom x y) = none) :
    (retrieveSeq c zoom x y rts).1.tiles.length = c.tiles.length + 1 ∧
    (∀ i ∈ (retrieveSeq c zoom x y rts).2, i = c.tiles.length) ∧
    (tileAt (retrieveSeq c zoom x y rts).1 c.tiles.length).requestTime =
      rts.getLast hne := by
  cases rts with
  | nil => exact absurd rfl hne
  | cons rt rest =>
      have hm := retrieveTile_miss habs rt
      simp only [retrieveSeq, hm]
      have h1 : getTileFromCache
          { c with tiles := c.tiles ++ [⟨zoom, x, y, rt, TileState.preparing⟩],
                   tileMap := c.tileMap ++ [(createKey zoom x y, c.tiles.length)],
                   loadRequests := c.loadRequests ++ [c.tiles.length] }
          (createKey zoom x y) = some c.tiles.length := by
        show List.lookup _ (c.tileMap ++ [(createKey zoom x y, c.tiles.length)]) = _
        rw [List.lookup_append]
        have habs2 : List.lookup (createKey zoom x y) c.tileMap = none := habs
        rw [habs2]
        simp [List.lookup]
      have hid1 : c.tiles.length <
          (c.tiles ++ [(⟨zoom, x, y, rt, TileState.preparing⟩ : Tile)]).length := by
        simp
      obtain ⟨hlen, _hmap, hids, hrt⟩ := retrieveSeq_hit zoom x y rest _ _ h1 hid1
      refine ⟨by simpa using hlen, ?_, ?_⟩
      · intro i hi
        rcases List.mem_cons.1 hi with rfl | hi
        · rfl
        · exact hids i hi
      · rw [hrt]
        have hnew : (tileAt
            { c with tiles := c.tiles ++ [⟨zoom, x, y, rt, TileState.preparing⟩],
                     tileMap := c.tileMap ++ [(createKey zoom x y, c.tiles.length)],
                     loadRequests := c.loadRequests ++ [c.tiles.length] }
            c.tiles.length).requestTime = rt := by
          simp [tileAt, getD_concat_self]
        rw [hnew]
        exact getLastD_cons_getLast rt rest hne

theorem C1_witness :
    (retrieveSeq (newTileCache 0) 1 2 3 [5, 3]).1.tiles.length = 1 :=
  (C1_identity_last_requestTime (newTileCache 0) 1 2 3 [5, 3] (by decide)
    (by decide)).1

/-! ## C5 counterexample -/

/-- C5 counterexample: with tilesToBeLoading = 0 the dispatch count n is 0,
yet processLoadRequests still re-sorts the queue — the state does change, so
the n ≤ 0 case is not free of state changes. -/
theorem C5_counterexample :
    cExQ.loadRequests = [0, 1] ∧
    (processLoadRequests cExQ (fun _ _ => true) 0 0).1.loadRequests = [1, 0] ∧
    (processLoadRequests cExQ (fun _ _ => true) 0 0).1 ≠ cExQ := by decide

/-! ## processLoop machinery -/

theorem dropLast_append_of_getLast? {α : Type} {q : List α} {a : α}
    (h : q.getLast? = some a) : q.dropLast ++ [a] = q := by
  have hne : q ≠ [] := by rintro rfl; simp at h
  have h2 := List.getLast?_eq_getLast q hne
  rw [h2] at h
  injection h with h3
  rw [← h3]
  exact List.dropLast_append_getLast hne

theorem processLoop_zero (accept : Nat → Nat → Bool) (cIdx : Nat)
    (tiles : List Tile) (q : List Nat) :
    processLoop accept 0 cIdx tiles q = (tiles, q, []) := rfl

theorem processLoop_none {q : List Nat} (hq : q.getLast? = none)
    (accept : Nat → Nat → Bool) (fuel cIdx : Nat) (tiles : List Tile) :
    processLoop accept (fuel + 1) cIdx tiles q = (tiles, q, []) := by
  simp [processLoop, hq]

theorem processLoop_accept {accept : Nat → Nat → Bool} {cIdx : Nat}
    {q : List Nat} {id : Nat} (hq : q.getLast? = some id)
    (ha : accept cIdx id = true) (fuel : Nat) (tiles : List Tile) :
    processLoop accept (fuel + 1) cIdx tiles q =
      ((processLoop accept fuel (cIdx + 1)
          (tiles.set id { tiles.getD id default with state := TileState.loading })
          q.dropLast).1,
       (processLoop accept fuel (cIdx + 1)
          (tiles.set id { tiles.getD id default with state := TileState.loading })
          q.dropLast).2.1,
       (id, true) ::
       (processLoop accept fuel (cIdx + 1)
          (tiles.set id { tiles.getD id default with state := TileState.loading })
          q.dropLast).2.2) := by
  simp [processLoop, hq, ha]

theorem processLoop_decline {accept : Nat → Nat → Bool} {cIdx : Nat}
    {q : List Nat} {id : Nat} (hq : q.getLast? = some id)
    (ha : accept cIdx id = false) (fuel : Nat) (tiles : List Tile) :
    processLoop accept (fuel + 1) cIdx tiles q =
      ((processLoop accept fuel (cIdx + 1) tiles q).1,
       (processLoop accept fuel (cIdx + 1) tiles q).2.1,
       (id, false) :: (processLoop accept fuel (cIdx + 1) tiles q).2.2) := by
  have hd : q.dropLast ++ [id] = q := dropLast_append_of_getLast? hq
  simp [processLoop, hq, ha, hd]

theorem processLoop_trace_length (accept : Nat → Nat → Bool) :
    ∀ (fuel cIdx : Nat) (tiles : List Tile) (q : List Nat),
    (processLoop accept fuel cIdx tiles q).2.2.length ≤ fuel := by
  intro fuel
  induction fuel with
  | zero => intro cIdx tiles q; simp [processLoop_zero]
  | succ n ih =>
      intro cIdx tiles q
      cases hq : q.getLast? with
      | none => simp [processLoop_none hq]
      | some id =>
          cases ha : accept cIdx id with
          | true =>
              rw [processLoop_accept hq ha]
              simpa using Nat.succ_le_succ (ih _ _ _)
          | false =>
              rw [processLoop_decline hq ha]
              simpa using Nat.succ_le_succ (ih _ _ _)

theorem processLoop_not_dropped (accept : Nat → Nat → Bool) :
    ∀ (fuel cIdx : Nat) (tiles : List Tile) (q : List Nat) (t : Nat), t ∈ q →
    t ∈ (processLoop accept fuel cIdx tiles q).2.1 ∨
    (t, true) ∈ (processLoop accept fuel cIdx tiles q).2.2 := by
  intro fuel
  induction fuel with
  | zero => intro cIdx tiles q t ht; rw [processLoop_zero]; exact Or.inl ht
  | succ n ih =>
      intro cIdx tiles q t ht
      cases hq : q.getLast? with
      | none => rw [processLoop_none hq]; exact Or.inl ht
      | some id =>
          cases ha : accept cIdx id with
          | true =>
              rw [processLoop_accept hq ha]
              rw [← dropLast_append_of_getLast? hq] at ht
              rcases List.mem_append.1 ht with h1 | h1
              · rcases ih (cIdx + 1) _ q.dropLast t h1 with h2 | h2
                · exact Or.inl h2
                · exact Or.inr (List.mem_cons_of_mem _ h2)
              · rcases List.mem_singleton.1 h1 with rfl
                exact Or.inr (List.mem_cons_self _ _)
          | false =>
              rw [processLoop_decline hq ha]
              rcases ih (cIdx + 1) tiles q t ht with h2 | h2
              · exact Or.inl h2
              · exact Or.inr (List.mem_cons_of_mem _ h2)

theorem lastResponse_cons_self_isSome (a : Nat) (b : Bool)
    (tr : List (Nat × Bool)) : (lastResponse ((a, b) :: tr) a).isSome := by
  cases h : lastResponse tr a <;> simp [lastResponse, h]

theorem processLoop_lastResponse_declined (accept : Nat → Nat → Bool) :
    ∀ (fuel cIdx : Nat) (tiles : List Tile) (q : List Nat) (t : Nat),
    lastResponse (processLoop accept fuel cIdx tiles q).2.2 t = some false →
    t ∈ (processLoop accept fuel cIdx tiles q).2.1 := by
  intro fuel
  induction fuel with
  | zero => intro cIdx tiles q t h; rw [processLoop_zero] at h; simp [lastResponse] at h
  | succ n ih =>
      intro cIdx tiles q t h
      cases hq : q.getLast? with
      | none => rw [processLoop_none hq] at h; simp [lastResponse] at h
      | some id =>
          cases ha : accept cIdx id with
          | true =>
              rw [processLoop_accept hq ha] at h ⊢
              cases hr : lastResponse (processLoop accept n (cIdx + 1)
                  (tiles.set id { tiles.getD id default with state := TileState.loading })
                  q.dropLast).2.2 t with
              | some r =>
                  simp only [lastResponse, hr] at h
                  injection h with h2
                  exact ih _ _ _ t (by rw [hr, h2])
              | none =>
                  simp only [lastResponse, hr] at h
                  split at h
                  · injection h with h2; cases h2
                  · exact absurd h (by simp)
          | false =>
              rw [processLoop_decline hq ha] at h ⊢
              cases hr : lastResponse
                  (processLoop accept n (cIdx + 1) tiles q).2.2 t with
              | some r =>
                  simp only [lastResponse, hr] at h
                  injection h with h2
                  exact ih _ _ _ t (by rw [hr, h2])
              | none =>
                  simp only [lastResponse, hr] at h
                  have hti : id = t := by
                    by_contra hne
                    rw [if_neg hne] at h
                    exact absurd h (by simp)
                  subst hti
                  cases n with
                  | zero =>
                      rw [processLoop_zero]
                      rw [← dropLast_append_of_getLast? hq]
                      exact List.mem_append_right _ (List.mem_singleton.2 rfl)
                  | succ m =>
                      exfalso
                      have hsome : (lastResponse
                          (processLoop accept (m + 1) (cIdx + 1) tiles q).2.2 id).isSome := by
                        cases ha2 : accept (cIdx + 1) id with
                        | true =>
                            rw [processLoop_accept hq ha2]
                            exact lastResponse_cons_self_isSome _ _ _
                        | false =>
                            rw [processLoop_decline hq ha2]
                            exact lastResponse_cons_self_isSome _ _ _
                      rw [hr] at hsome
                      simp at hsome

/-! ## C4 -/

/-- C4: a dispatch round makes at most tilesToBeLoading minus the provider's
in-flight counter loadTile calls, and no more than the queue length; a tile
whose (last) loadTile call is declined is still in the queue afterwards, and
more generally no queued tile leaves the queue without an accepted load. -/
theorem C4_dispatch_bound_and_requeue (c : TileCache) (accept : Nat → Nat → Bool)
    (counter ttbl : Nat) :
    (processLoadRequests c accept counter ttbl).2.length ≤ ttbl - counter ∧
    (processLoadRequests c accept counter ttbl).2.length ≤ c.loadRequests.length ∧
    (∀ t, lastResponse (processLoadRequests c accept counter ttbl).2 t = some false →
      t ∈ (processLoadRequests c accept counter ttbl).1.loadRequests) ∧
    (∀ t ∈ c.loadRequests,
      t ∈ (processLoadRequests c accept counter ttbl).1.loadRequests ∨
      (t, true) ∈ (processLoadRequests c accept counter ttbl).2) := by
  have hperm := List.perm_insertionSort (fun a b =>
    (c.tiles.getD a default).requestTime ≤ (c.tiles.getD b default).requestTime)
    c.loadRequests
  have hlen := processLoop_trace_length accept
    (min (sortByRequestTime c.tiles c.loadRequests).length (ttbl - counter)) 0
    c.tiles (sortByRequestTime c.tiles c.loadRequests)
  refine ⟨?_, ?_, ?_, ?_⟩
  · exact hlen.trans (Nat.min_le_right _ _)
  · refine hlen.trans ((Nat.min_le_left _ _).trans ?_)
    exact Nat.le_of_eq (hperm.length_eq)
  · intro t ht
    exact processLoop_lastResponse_declined accept _ 0 c.tiles _ t ht
  · intro t ht
    have ht2 : t ∈ sortByRequestTime c.tiles c.loadRequests := hperm.mem_iff.2 ht
    exact processLoop_not_dropped accept _ 0 c.tiles _ t ht2

theorem C4_witness :
    (0 : Nat) ∈ (processLoadRequests cExQ (fun _ _ => false) 0 2).1.loadRequests :=
  (C4_dispatch_bound_and_requeue cExQ (fun _ _ => false) 0 2).2.2.1 0 (by decide)

/-! ## C10 -/

theorem processLoop_trace_first (accept : Nat → Nat → Bool)
    (fuel cIdx : Nat) (tiles : List Tile) (q : List Nat) (p : Nat × Bool) :
    (processLoop accept fuel cIdx tiles q).2.2[0]? = some p →
    q.getLast? = some p.1 := by
  cases fuel with
  | zero => rw [processLoop_zero]; intro h; simp at h
  | succ n =>
      cases hq : q.getLast? with
      | none => rw [processLoop_none hq]; intro h; simp at h
      | some id =>
          cases ha : accept cIdx id with
          | true =>
              rw [processLoop_accept hq ha]
              intro h
              simp only [List.getElem?_cons_zero] at h
              injection h with h2
              rw [← h2]
          | false =>
              rw [processLoop_decline hq ha]
              intro h
              simp only [List.getElem?_cons_zero] at h
              injection h with h2
              rw [← h2]

theorem processLoop_declined_offered_next (accept : Nat → Nat → Bool) :
    ∀ (fuel cIdx : Nat) (tiles : List Tile) (q : List Nat) (k id : Nat)
      (p : Nat × Bool),
    (processLoop accept fuel cIdx tiles q).2.2[k]? = some (id, false) →
    (processLoop accept fuel cIdx tiles q).2.2[k + 1]? = some p →
    p.1 = id := by
  intro fuel
  induction fuel with
  | zero =>
      intro cIdx tiles q k id p h1 _h2
      rw [processLoop_zero] at h1
      simp at h1
  | succ n ih =>
      intro cIdx tiles q k id p h1 h2
      cases hq : q.getLast? with
      | none => rw [processLoop_none hq] at h1; simp at h1
      | some id0 =>
          cases ha : accept cIdx id0 with
          | true =>
              rw [processLoop_accept hq ha] at h1 h2
              cases k with
              | zero =>
                  simp only [List.getElem?_cons_zero] at h1
                  injection h1 with h3
                  cases h3
              | succ j =>
                  simp only [List.getElem?_cons_succ] at h1 h2
                  exact ih _ _ _ j id p h1 h2
          | false =>
              rw [processLoop_decline hq ha] at h1 h2
              cases k with
              | zero =>
                  simp only [List.getElem?_cons_zero] at h1
                  injection h1 with h3
                  have hid : id0 = id := congrArg Prod.fst h3
                  simp only [List.getElem?_cons_succ] at h2
                  have := processLoop_trace_first accept n (cIdx + 1) tiles q p h2
                  rw [hq] at this
                  injection this with h4
                  rw [← h4, hid]
              | succ j =>
                  simp only [List.getElem?_cons_succ] at h1 h2
                  exact ih _ _ _ j id p h1 h2

theorem processLoop_all_declined (tiles : List Tile) :
    ∀ (fuel cIdx : Nat) (q : List Nat) (idm : Nat), q.getLast? = some idm →
    processLoop (fun _ _ => false) fuel cIdx tiles q =
      (tiles, q, List.replicate fuel (idm, false)) := by
  intro fuel
  induction fuel with
  | zero => intro cIdx q idm _; rw [processLoop_zero]; rfl
  | succ n ih =>
      intro cIdx q idm hq
      rw [processLoop_decline hq rfl]
      rw [ih (cIdx + 1) q idm hq]
      rfl

/-- C10: within one dispatch round, a declined tile is pushed back onto the
queue tail and is the very tile offered on the next loadTile call of the
round; with a persistently declining provider one round makes n offers of
the single highest-requestTime tile and leaves the sorted queue unchanged. -/
theorem C10_decline_reoffers_same_tile (c : TileCache) (counter ttbl : Nat) :
    (∀ (accept : Nat → Nat → Bool) (k id : Nat) (p : Nat × Bool),
      (processLoadRequests c accept counter ttbl).2[k]? = some (id, false) →
      (processLoadRequests c accept counter ttbl).2[k + 1]? = some p →
      p.1 = id) ∧
    (∀ idm : Nat, (sortByRequestTime c.tiles c.loadRequests).getLast? = some idm →
      (processLoadRequests c (fun _ _ => false) counter ttbl).2 =
        List.replicate (min c.loadRequests.length (ttbl - counter)) (idm, false) ∧
      (processLoadRequests c (fun _ _ => false) counter ttbl).1.loadRequests =
        sortByRequestTime c.tiles c.loadRequests) := by
  constructor
  · intro accept k id p h1 h2
    exact processLoop_declined_offered_next accept _ 0 c.tiles _ k id p h1 h2
  · intro idm hq
    have hlen : (sortByRequestTime c.tiles c.loadRequests).length =
        c.loadRequests.length :=
      (List.perm_insertionSort _ c.loadRequests).length_eq
    have h := processLoop_all_declined c.tiles
      (min (sortByRequestTime c.tiles c.loadRequests).length (ttbl - counter)) 0
      (sortByRequestTime c.tiles c.loadRequests) idm hq
    constructor
    · show (processLoop (fun _ _ => false)
        (min (sortByRequestTime c.tiles c.loadRequests).length (ttbl - counter)) 0
        c.tiles (sortByRequestTime c.tiles c.loadRequests)).2.2 = _
      rw [h, hlen]
    · show (processLoop (fun _ _ => false)
        (min (sortByRequestTime c.tiles c.loadRequests).length (ttbl - counter)) 0
        c.tiles (sortByRequestTime c.tiles c.loadRequests)).2.1 = _
      rw [h]

theorem C10_witness :
    (processLoadRequests cExQ (fun _ _ => false) 0 2).2 =
      [(0, false), (0, false)] := by
  have h := (C10_decline_reoffers_same_tile cExQ 0 2).2 0 (by decide)
  rw [h.1]
  decide

/-! ## C5 -/

theorem processLoop_all_accepted (accept : Nat → Nat → Bool)
    (hacc : ∀ k id, accept k id = true) :
    ∀ (fuel cIdx : Nat) (tiles : List Tile) (q : List Nat), fuel ≤ q.length →
    (processLoop accept fuel cIdx tiles q).2.1 = q.take (q.length - fuel) ∧
    (processLoop accept fuel cIdx tiles q).2.2 =
      (q.drop (q.length - fuel)).reverse.map (fun id => (id, true)) := by
  intro fuel
  induction fuel with
  | zero =>
      intro cIdx tiles q _
      rw [processLoop_zero]
      constructor
      · simp
      · simp
  | succ n ih =>
      intro cIdx tiles q hle
      have hne : q ≠ [] := by
        intro he; rw [he] at hle; simp at hle
      have hq : q.getLast? = some (q.getLast hne) := List.getLast?_eq_getLast q hne
      have hlen2 : n ≤ q.dropLast.length := by
        rw [List.length_dropLast]; omega
      obtain ⟨ih1, ih2⟩ := ih (cIdx + 1)
        (tiles.set (q.getLast hne)
          { tiles.getD (q.getLast hne) default with state := TileState.loading })
        q.dropLast hlen2
      constructor
      · rw [processLoop_accept hq (hacc cIdx _)]
        simp only [ih1]
        rw [List.dropLast_eq_take, List.take_take]
        congr 1
        simp only [List.length_take]
        omega
      · rw [processLoop_accept hq (hacc cIdx _)]
        simp only [ih2]
        have e2 : q.dropLast.length - n = q.length - (n + 1) := by
          rw [List.length_dropLast]; omega
        have hle2 : q.length - (n + 1) ≤ q.dropLast.length := by
          rw [List.length_dropLast]; omega
        have h3 : q.dropLast ++ [q.getLast hne] = q := List.dropLast_append_getLast hne
        have hsplit : q.drop (q.length - (n + 1)) =
            q.dropLast.drop (q.length - (n + 1)) ++ [q.getLast hne] := by
          calc q.drop (q.length - (n + 1))
              = (q.dropLast ++ [q.getLast hne]).drop (q.length - (n + 1)) := by rw [h3]
            _ = q.dropLast.drop (q.length - (n + 1)) ++ [q.getLast hne] :=
                List.drop_append_of_le_length hle2
        rw [e2, hsplit, List.reverse_append]
        simp

/-- C5 amended: the sorted queue is ascending in requestTime; when
n = min(queueLength, tilesToBeLoading - inFlight) is 0 no load is issued and
nothing is removed, but the queue IS still re-sorted (the sort happens
before n is computed, so the claimed "no state change at all" fails);
when the provider accepts every load, the round pops exactly the n
highest-requestTime entries, most recent first (distinct when the queue has
no duplicates), leaving the first queueLength - n sorted entries. -/
theorem C5_dispatch_order (c : TileCache) (accept : Nat → Nat → Bool)
    (counter ttbl : Nat) :
    List.Sorted (fun a b => (tileAt c a).requestTime ≤ (tileAt c b).requestTime)
      (sortByRequestTime c.tiles c.loadRequests) ∧
    (min (sortByRequestTime c.tiles c.loadRequests).length (ttbl - counter) = 0 →
      (processLoadRequests c accept counter ttbl).1 =
        { c with loadRequests := sortByRequestTime c.tiles c.loadRequests } ∧
      (processLoadRequests c accept counter ttbl).2 = []) ∧
    ((∀ k id, accept k id = true) →
      (processLoadRequests c accept counter ttbl).2 =
        ((sortByRequestTime c.tiles c.loadRequests).drop
          ((sortByRequestTime c.tiles c.loadRequests).length -
           min (sortByRequestTime c.tiles c.loadRequests).length
             (ttbl - counter))).reverse.map (fun id => (id, true)) ∧
      (processLoadRequests c accept counter ttbl).1.loadRequests =
        (sortByRequestTime c.tiles c.loadRequests).take
          ((sortByRequestTime c.tiles c.loadRequests).length -
           min (sortByRequestTime c.tiles c.loadRequests).length (ttbl - counter)) ∧
      (c.loadRequests.Nodup →
        ((processLoadRequests c accept counter ttbl).2.map Prod.fst).Nodup)) := by
  refine ⟨?_, ?_, ?_⟩
  · haveI : IsTotal Nat (fun a b =>
        (tileAt c a).requestTime ≤ (tileAt c b).requestTime) :=
      ⟨fun a b => le_total _ _⟩
    haveI : IsTrans Nat (fun a b =>
        (tileAt c a).requestTime ≤ (tileAt c b).requestTime) :=
      ⟨fun a b d h1 h2 => le_trans h1 h2⟩
    exact List.sorted_insertionSort
      (fun a b => (tileAt c a).requestTime ≤ (tileAt c b).requestTime)
      c.loadRequests
  · intro h0
    constructor
    · show ({ c with
          tiles := (processLoop accept
            (min (sortByRequestTime c.tiles c.loadRequests).length (ttbl - counter)) 0
            c.tiles (sortByRequestTime c.tiles c.loadRequests)).1,
          loadRequests := (processLoop accept
            (min (sortByRequestTime c.tiles c.loadRequests).length (ttbl - counter)) 0
            c.tiles (sortByRequestTime c.tiles c.loadRequests)).2.1 } : TileCache) = _
      rw [h0, processLoop_zero]
    · show (processLoop accept
          (min (sortByRequestTime c.tiles c.loadRequests).length (ttbl - counter)) 0
          c.tiles (sortByRequestTime c.tiles c.loadRequests)).2.2 = _
      rw [h0, processLoop_zero]
  · intro hacc
    obtain ⟨h1, h2⟩ := processLoop_all_accepted accept hacc
      (min (sortByRequestTime c.tiles c.loadRequests).length (ttbl - counter)) 0
      c.tiles (sortByRequestTime c.tiles c.loadRequests)
      (Nat.min_le_left _ _)
    refine ⟨h2, h1, ?_⟩
    intro hnd
    have hqnd : (sortByRequestTime c.tiles c.loadRequests).Nodup :=
      ((List.perm_insertionSort _ c.loadRequests).nodup_iff).2 hnd
    show (((processLoop accept
        (min (sortByRequestTime c.tiles c.loadRequests).length (ttbl - counter)) 0
        c.tiles (sortByRequestTime c.tiles c.loadRequests)).2.2).map Prod.fst).Nodup
    rw [h2, List.map_map]
    have hcomp : (Prod.fst ∘ fun id => ((id, true) : Nat × Bool)) = id := rfl
    rw [hcomp, List.map_id, List.nodup_reverse]
    exact (List.drop_sublist _ _).nodup hqnd

theorem C5_witness :
    (processLoadRequests cExQ (fun _ _ => true) 0 2).2 = [(0, true), (1, true)] := by
  have h := ((C5_dispatch_order cExQ (fun _ _ => true) 0 2).2.2
    (fun _ _ => rfl)).1
  rw [h]
  decide

/-! ## Well-formedness machinery -/

theorem entry_eq_of_keysNodup {m : List (Key × Nat)}
    (hk : (m.map Prod.fst).Nodup) {p q : Key × Nat}
    (hp : p ∈ m) (hq : q ∈ m) (hkey : p.1 = q.1) : p = q := by
  induction m with
  | nil => simp at hp
  | cons e rest ih =>
      simp only [List.map_cons, List.nodup_cons] at hk
      rcases List.mem_cons.1 hp with rfl | hp2
      · rcases List.mem_cons.1 hq with rfl | hq2
        · rfl
        · exact absurd (hkey ▸ List.mem_map.2 ⟨q, hq2, rfl⟩) hk.1
      · rcases List.mem_cons.1 hq with rfl | hq2
        · exact absurd (hkey ▸ List.mem_map.2 ⟨p, hp2, rfl⟩) hk.1
        · exact ih hk.2 hp2 hq2

theorem mapOK_mapRemove {tiles : List Tile} {m : List (Key × Nat)}
    (hmap : MapOK tiles m) (k : Key) : MapOK tiles (mapRemove m k) := by
  constructor
  · intro p hp
    exact hmap.1 p (List.mem_of_mem_filter hp)
  · exact ((List.filter_sublist m).map Prod.fst).nodup hmap.2

theorem mem_mapRemove {m : List (Key × Nat)} {p : Key × Nat} {k : Key}
    (hp : p ∈ m) (hne : p.1 ≠ k) : p ∈ mapRemove m k := by
  refine List.mem_filter.2 ⟨hp, ?_⟩
  simpa using hne

theorem mapRemove_lookup_other {tiles : List Tile} {m : List (Key × Nat)}
    (hmap : MapOK tiles m) {id j : Nat}
    (hidm : ∃ k, (k, id) ∈ m)
    (hj : m.lookup ((tiles.getD j default).getKey) = some j)
    (hne : j ≠ id) :
    (mapRemove m ((tiles.getD id default).getKey)).lookup
      ((tiles.getD j default).getKey) = some j := by
  obtain ⟨kid, hkid⟩ := hidm
  have hkid2 : kid = (tiles.getD id default).getKey := (hmap.1 _ hkid).2.symm
  have hjm : ((tiles.getD j default).getKey, j) ∈ m := lookup_mem hj
  have hkne : (tiles.getD j default).getKey ≠ (tiles.getD id default).getKey := by
    intro he
    have := entry_eq_of_keysNodup hmap.2 hjm hkid (by rw [he, hkid2])
    exact hne (congrArg Prod.snd this)
  exact mem_lookup (mapOK_mapRemove hmap _).2 (mem_mapRemove hjm hkne)

theorem mapOK_set_tile {tiles : List Tile} {m : List (Key × Nat)}
    (hmap : MapOK tiles m) (id : Nat) (t : Tile)
    (hkey : t.getKey = (tiles.getD id default).getKey) :
    MapOK (tiles.set id t) m := by
  constructor
  · intro p hp
    obtain ⟨h1, h2⟩ := hmap.1 p hp
    refine ⟨by simpa using h1, ?_⟩
    by_cases h : id = p.2
    · subst h
      rw [getD_set_self _ _ _ _ h1, hkey]
      exact h2
    · rw [getD_set_ne _ _ _ _ _ h]
      exact h2
  · exact hmap.2

theorem queueOK_set_tile {tiles : List Tile} {m : List (Key × Nat)}
    {q : List Nat} (hq : QueueOK tiles m q) (id : Nat) (t : Tile)
    (hkey : t.getKey = (tiles.getD id default).getKey)
    (hstate : id ∈ q → t.state = TileState.preparing) :
    QueueOK (tiles.set id t) m q := by
  constructor
  · intro j hj
    obtain ⟨h1, h2, h3⟩ := hq.1 j hj
    by_cases h : id = j
    · subst h
      rw [getD_set_self _ _ _ _ h1, hkey]
      exact ⟨by simpa using h1, hstate hj, h3⟩
    · rw [getD_set_ne _ _ _ _ _ h]
      exact ⟨by simpa using h1, h2, h3⟩
  · exact hq.2

theorem wf_setTileProvider (c : TileCache) (now : Int) :
    WF (setTileProvider c now) := by
  refine ⟨⟨?_, ?_⟩, ⟨?_, ?_⟩⟩ <;> simp [setTileProvider]

theorem wf_newTileCache (t0 : Int) : WF (newTileCache t0) :=
  wf_setTileProvider _ t0

theorem wf_updateRequestTime {c : TileCache} (h : WF c) (key : Key) (rt : Int) :
    WF (updateRequestTime c key rt) := by
  cases hl : getTileFromCache c key with
  | none => rw [C9_updateRequestTime_absent_noop c key rt hl]; exact h
  | some id =>
      unfold updateRequestTime
      rw [hl]
      constructor
      · exact mapOK_set_tile h.1 id _ rfl
      · refine queueOK_set_tile h.2 id _ rfl ?_
        intro hin
        exact (h.2.1 id hin).2.1

theorem wf_retrieveTile {c : TileCache} (h : WF c) (zoom : Nat) (x y rt : Int) :
    WF (retrieveTile c zoom x y rt).1 := by
  cases hl : getTileFromCache c (createKey zoom x y) with
  | some id =>
      rw [retrieveTile_hit hl rt]
      constructor
      · exact mapOK_set_tile h.1 id _ rfl
      · refine queueOK_set_tile h.2 id _ rfl ?_
        intro hin
        exact (h.2.1 id hin).2.1
  | none =>
      rw [retrieveTile_miss hl rt]
      have hnotk : ∀ p ∈ c.tileMap, p.1 ≠ createKey zoom x y :=
        lookup_eq_none_iff.1 hl
      constructor
      · constructor
        · intro p hp
          rcases List.mem_append.1 hp with h1 | h1
          · obtain ⟨ha, hb⟩ := h.1.1 p h1
            refine ⟨by simp; omega, ?_⟩
            rw [List.getD_append _ _ _ _ ha]
            exact hb
          · rcases List.mem_singleton.1 h1 with rfl
            refine ⟨by simp, ?_⟩
            rw [getD_concat_self]
            rfl
        · rw [List.map_append]
          rw [List.nodup_append]
          refine ⟨h.1.2, by simp, ?_⟩
          intro a ha
          simp only [List.map_cons, List.map_nil, List.mem_singleton]
          obtain ⟨p, hp, rfl⟩ := List.mem_map.1 ha
          exact hnotk p hp
      · constructor
        · intro j hj
          rcases List.mem_append.1 hj with h1 | h1
          · obtain ⟨ha, hb, hc⟩ := h.2.1 j h1
            refine ⟨by simp; omega, ?_, ?_⟩
            · rw [List.getD_append _ _ _ _ ha]
              exact hb
            · rw [List.getD_append _ _ _ _ ha]
              show List.lookup _ (c.tileMap ++ [(createKey zoom x y, c.tiles.length)]) = _
              rw [List.lookup_append]
              have hc2 : List.lookup ((c.tiles.getD j default).getKey) c.tileMap
                  = some j := hc
              rw [hc2]
              rfl
          · rcases List.mem_singleton.1 h1 with rfl
            refine ⟨by simp, ?_, ?_⟩
            · rw [getD_concat_self]
            · rw [getD_concat_self]
              show List.lookup _ (c.tileMap ++ [(createKey zoom x y, c.tiles.length)]) = _
              rw [List.lookup_append]
              have hnone : List.lookup (Tile.getKey
                  ⟨zoom, x, y, rt, TileState.preparing⟩) c.tileMap = none := hl
              rw [hnone]
              simp [List.lookup, Tile.getKey]
        · rw [List.nodup_append]
          refine ⟨h.2.2, by simp, ?_⟩
          intro a ha
          simp only [List.mem_singleton]
          have := (h.2.1 a ha).1
          omega

/-! ## cleanCache loop analysis -/

theorem cleanLoop_nil (tiles : List Tile) (ts : Nat) (m : List (Key × Nat))
    (q : List Nat) : cleanLoop tiles ts m q [] = (m, q, []) := rfl

theorem cleanLoop_cons_stop {m : List (Key × Nat)} {ts : Nat}
    (hts : ¬ m.length > ts) (tiles : List Tile) (q : List Nat)
    (id : Nat) (rest : List Nat) :
    cleanLoop tiles ts m q (id :: rest) = (m, q, []) := by
  simp [cleanLoop, hts]

theorem cleanLoop_cons_go {m : List (Key × Nat)} {ts : Nat}
    (hts : m.length > ts) (tiles : List Tile) (q : List Nat)
    (id : Nat) (rest : List Nat) :
    cleanLoop tiles ts m q (id :: rest) =
      ((cleanLoop tiles ts (mapRemove m (tiles.getD id default).getKey)
          (if (tiles.getD id default).state = TileState.preparing
           then q.erase id else q) rest).1,
       (cleanLoop tiles ts (mapRemove m (tiles.getD id default).getKey)
          (if (tiles.getD id default).state = TileState.preparing
           then q.erase id else q) rest).2.1,
       id :: (cleanLoop tiles ts (mapRemove m (tiles.getD id default).getKey)
          (if (tiles.getD id default).state = TileState.preparing
           then q.erase id else q) rest).2.2) := by
  simp [cleanLoop, hts]

theorem cleanLoop_spec (tiles : List Tile) (ts : Nat) :
    ∀ (cl : List Nat) (m : List (Key × Nat)) (q : List Nat),
    MapOK tiles m → QueueOK tiles m q → cl.Nodup →
    (∀ id ∈ cl, ∃ k, (k, id) ∈ m) →
    (∀ id ∈ cl, (tiles.getD id default).state ≠ TileState.loading) →
    (∀ p ∈ m, (tiles.getD p.2 default).state ≠ TileState.loading → p.2 ∈ cl) →
    MapOK tiles (cleanLoop tiles ts m q cl).1 ∧
    QueueOK tiles (cleanLoop tiles ts m q cl).1 (cleanLoop tiles ts m q cl).2.1 ∧
    (cleanLoop tiles ts m q cl).2.1.Sublist q ∧
    (∀ p ∈ m, (tiles.getD p.2 default).state = TileState.loading →
      p ∈ (cleanLoop tiles ts m q cl).1) ∧
    (cleanLoop tiles ts m q cl).2.2.IsPrefix cl ∧
    (∀ id ∈ (cleanLoop tiles ts m q cl).2.2,
      (tiles.getD id default).state = TileState.preparing →
      id ∉ (cleanLoop tiles ts m q cl).2.1) ∧
    ((cleanLoop tiles ts m q cl).1.length ≤ ts ∨
      ∀ p ∈ (cleanLoop tiles ts m q cl).1,
        (tiles.getD p.2 default).state = TileState.loading) := by
  intro cl
  induction cl with
  | nil =>
      intro m q hmap hq _hnd _hval _hnl hcov
      rw [cleanLoop_nil]
      refine ⟨hmap, hq, List.Sublist.refl q, fun p hp _ => hp, ⟨[], rfl⟩,
        by simp, ?_⟩
      by_cases hts : m.length ≤ ts
      · exact Or.inl hts
      · refine Or.inr fun p hp => ?_
        by_contra hnl2
        exact absurd (hcov p hp hnl2) (by simp)
  | cons id rest ih =>
      intro m q hmap hq hnd hval hnl hcov
      by_cases hts : m.length > ts
      · rw [cleanLoop_cons_go hts]
        obtain ⟨kid, hkid⟩ := hval id (List.mem_cons_self _ _)
        have hkid2 : kid = (tiles.getD id default).getKey := (hmap.1 _ hkid).2.symm
        have hidnr : id ∉ rest := (List.nodup_cons.1 hnd).1
        have hmap1 : MapOK tiles (mapRemove m (tiles.getD id default).getKey) :=
          mapOK_mapRemove hmap _
        have hq1 : QueueOK tiles (mapRemove m (tiles.getD id default).getKey)
            (if (tiles.getD id default).state = TileState.preparing
             then q.erase id else q) := by
          constructor
          · intro j hj
            have hjq : j ∈ q := by
              by_cases hpr : (tiles.getD id default).state = TileState.preparing
              · rw [if_pos hpr] at hj
                exact (List.erase_sublist id q).subset hj
              · rwa [if_neg hpr] at hj
            have hjne : j ≠ id := by
              intro he
              subst he
              by_cases hpr : (tiles.getD j default).state = TileState.preparing
              · rw [if_pos hpr] at hj
                exact hq.2.not_mem_erase hj
              · exact hpr (hq.1 j hjq).2.1
            obtain ⟨h1, h2, h3⟩ := hq.1 j hjq
            exact ⟨h1, h2, mapRemove_lookup_other hmap ⟨kid, hkid⟩ h3 hjne⟩
          · by_cases hpr : (tiles.getD id default).state = TileState.preparing
            · rw [if_pos hpr]
              exact (List.erase_sublist id q).nodup hq.2
            · rw [if_neg hpr]
              exact hq.2
        have hval1 : ∀ i ∈ rest,
            ∃ k, (k, i) ∈ mapRemove m (tiles.getD id default).getKey := by
          intro i hi
          obtain ⟨k, hk⟩ := hval i (List.mem_cons_of_mem _ hi)
          have hk2 : k = (tiles.getD i default).getKey := (hmap.1 _ hk).2.symm
          refine ⟨k, mem_mapRemove hk ?_⟩
          intro he
          have heq := entry_eq_of_keysNodup hmap.2 hk hkid
            (by rw [he, hkid2])
          have hii : i = id := by
            have h2 := congrArg Prod.snd heq
            simpa using h2
          exact hidnr (hii ▸ hi)
        have hcov1 : ∀ p ∈ mapRemove m (tiles.getD id default).getKey,
            (tiles.getD p.2 default).state ≠ TileState.loading → p.2 ∈ rest := by
          intro p hp hnl2
          have hpm : p ∈ m := List.mem_of_mem_filter hp
          rcases List.mem_cons.1 (hcov p hpm hnl2) with he | h2
          · exfalso
            have hpk : p.1 = (tiles.getD id default).getKey := by
              rw [(hmap.1 p hpm).2.symm, he]
            have := List.mem_filter.1 hp
            rw [hpk] at this
            simp at this
          · exact h2
        obtain ⟨i1, i2, i3, i4, i5, i6, i7⟩ := ih _ _ hmap1 hq1
          (List.nodup_cons.1 hnd).2 hval1
          (fun i hi => hnl i (List.mem_cons_of_mem _ hi)) hcov1
        refine ⟨i1, i2, ?_, ?_, ?_, ?_, i7⟩
        · refine i3.trans ?_
          by_cases hpr : (tiles.getD id default).state = TileState.preparing
          · rw [if_pos hpr]; exact List.erase_sublist id q
          · rw [if_neg hpr]
        · intro p hp hld
          refine i4 p ?_ hld
          refine mem_mapRemove hp ?_
          intro he
          have heq := entry_eq_of_keysNodup hmap.2 hp hkid (by rw [he, hkid2])
          have hpid : p.2 = id := by
            have h2 := congrArg Prod.snd heq
            simpa using h2
          rw [hpid] at hld
          exact hnl id (List.mem_cons_self _ _) hld
        · obtain ⟨t, ht⟩ := i5
          exact ⟨t, by rw [List.cons_append, ht]⟩
        · intro i hi hpr2
          rcases List.mem_cons.1 hi with rfl | hi2
          · have hq1e : (if (tiles.getD i default).state = TileState.preparing
                then q.erase i else q) = q.erase i := if_pos hpr2
            intro hmem
            have hmem2 : i ∈ (cleanLoop tiles ts
                (mapRemove m (tiles.getD i default).getKey)
                (if (tiles.getD i default).state = TileState.preparing
                 then q.erase i else q) rest).2.1 := hmem
            rw [hq1e] at hmem2 i3
            exact hq.2.not_mem_erase (i3.subset hmem2)
          · exact i6 i hi2 hpr2
      · rw [cleanLoop_cons_stop hts]
        refine ⟨hmap, hq, List.Sublist.refl q, fun p hp _ => hp, ⟨id :: rest, rfl⟩,
          by simp, Or.inl ?_⟩
        simpa using Nat.le_of_not_lt hts

theorem mapOK_values_nodup {tiles : List Tile} {m : List (Key × Nat)}
    (h : MapOK tiles m) : (m.map Prod.snd).Nodup := by
  induction m with
  | nil => simp
  | cons e rest ih =>
      simp only [List.map_cons, List.nodup_cons]
      have hk := h.2
      simp only [List.map_cons, List.nodup_cons] at hk
      constructor
      · intro hmem
        obtain ⟨p, hp, hpe⟩ := List.mem_map.1 hmem
        have he1 : e.1 = (tiles.getD e.2 default).getKey :=
          (h.1 e (List.mem_cons_self _ _)).2.symm
        have hp1 : p.1 = (tiles.getD p.2 default).getKey :=
          (h.1 p (List.mem_cons_of_mem _ hp)).2.symm
        have : p.1 = e.1 := by rw [he1, hp1, hpe]
        exact hk.1 (this ▸ List.mem_map.2 ⟨p, hp, rfl⟩)
      · exact ih ⟨fun p hp => h.1 p (List.mem_cons_of_mem _ hp), hk.2⟩

/-- The cleanable candidates of cleanCache, sorted: names the list the
cleanCache loop consumes. -/
theorem cleanCache_sorted_facts {c : TileCache} (h : WF c) :
    (sortByRequestTime c.tiles
      ((c.tileMap.map (fun p => p.2)).filter (fun id =>
        (tileAt c id).state = TileState.loaded ∨
        (tileAt c id).state = TileState.preparing ∨
        (tileAt c id).state = TileState.error))).Nodup ∧
    (∀ id ∈ sortByRequestTime c.tiles
        ((c.tileMap.map (fun p => p.2)).filter (fun id =>
          (tileAt c id).state = TileState.loaded ∨
          (tileAt c id).state = TileState.preparing ∨
          (tileAt c id).state = TileState.error)),
      ∃ k, (k, id) ∈ c.tileMap) ∧
    (∀ id ∈ sortByRequestTime c.tiles
        ((c.tileMap.map (fun p => p.2)).filter (fun id =>
          (tileAt c id).state = TileState.loaded ∨
          (tileAt c id).state = TileState.preparing ∨
          (tileAt c id).state = TileState.error)),
      (c.tiles.getD id default).state ≠ TileState.loading) ∧
    (∀ p ∈ c.tileMap, (c.tiles.getD p.2 default).state ≠ TileState.loading →
      p.2 ∈ sortByRequestTime c.tiles
        ((c.tileMap.map (fun p => p.2)).filter (fun id =>
          (tileAt c id).state = TileState.loaded ∨
          (tileAt c id).state = TileState.preparing ∨
          (tileAt c id).state = TileState.error))) := by
  have hperm := List.perm_insertionSort (fun a b =>
    (c.tiles.getD a default).requestTime ≤ (c.tiles.getD b default).requestTime)
    ((c.tileMap.map (fun p => p.2)).filter (fun id =>
      decide ((tileAt c id).state = TileState.loaded ∨
        (tileAt c id).state = TileState.preparing ∨
        (tileAt c id).state = TileState.error)))
  refine ⟨?_, ?_, ?_, ?_⟩
  · refine hperm.nodup_iff.2 ?_
    exact (List.filter_sublist _).nodup (mapOK_values_nodup h.1)
  · intro id hid
    have h2 : id ∈ (c.tileMap.map (fun p => p.2)) :=
      (List.filter_sublist _).subset (hperm.mem_iff.1 hid)
    obtain ⟨p, hp, hpe⟩ := List.mem_map.1 h2
    exact ⟨p.1, by rw [← hpe]; exact hp⟩
  · intro id hid
    have h2 := List.mem_filter.1 (hperm.mem_iff.1 hid)
    have h3 := of_decide_eq_true h2.2
    intro hld
    rcases h3 with h4 | h4 | h4 <;> rw [show (tileAt c id) = c.tiles.getD id default
      from rfl] at h4 <;> rw [hld] at h4 <;> cases h4
  · intro p hp hnl
    refine hperm.mem_iff.2 (List.mem_filter.2 ⟨List.mem_map.2 ⟨p, hp, rfl⟩, ?_⟩)
    refine decide_eq_true ?_
    cases hst : (tileAt c p.2).state with
    | loading => exact absurd hst hnl
    | loaded => exact Or.inl rfl
    | preparing => exact Or.inr (Or.inl rfl)
    | error => exact Or.inr (Or.inr rfl)

theorem wf_cleanCache {c : TileCache} (h : WF c) : WF (cleanCache c) := by
  obtain ⟨hnd, hval, hnl, hcov⟩ := cleanCache_sorted_facts h
  obtain ⟨i1, i2, _⟩ := cleanLoop_spec c.tiles c.targetSize _ _ _ h.1 h.2 hnd hval hnl hcov
  exact ⟨i1, i2⟩

/-! ## C3 -/

/-- C3: on a well-formed cache, cleanCache never removes a Loading tile
(every Loading map entry survives); the removed candidates are in ascending
requestTime order and none is Loading; a removed Preparing tile is also
removed from the load-request queue; and afterwards either the store size is
at most targetSize or every remaining tile is Loading. -/
theorem C3_eviction (c : TileCache) (h : WF c) :
    (∀ p ∈ c.tileMap, (tileAt c p.2).state = TileState.loading →
      p ∈ (cleanCache c).tileMap) ∧
    (cleanCacheRemoved c).Pairwise
      (fun a b => (tileAt c a).requestTime ≤ (tileAt c b).requestTime) ∧
    (∀ id ∈ cleanCacheRemoved c, (tileAt c id).state ≠ TileState.loading) ∧
    (∀ id ∈ cleanCacheRemoved c, (tileAt c id).state = TileState.preparing →
      id ∉ (cleanCache c).loadRequests) ∧
    ((cleanCache c).tileMap.length ≤ c.targetSize ∨
      ∀ p ∈ (cleanCache c).tileMap, (tileAt c p.2).state = TileState.loading) := by
  obtain ⟨hnd, hval, hnl, hcov⟩ := cleanCache_sorted_facts h
  obtain ⟨_i1, _i2, _i3, i4, i5, i6, i7⟩ :=
    cleanLoop_spec c.tiles c.targetSize _ _ _ h.1 h.2 hnd hval hnl hcov
  have hsorted : (sortByRequestTime c.tiles
      ((c.tileMap.map (fun p => p.2)).filter (fun id =>
        (tileAt c id).state = TileState.loaded ∨
        (tileAt c id).state = TileState.preparing ∨
        (tileAt c id).state = TileState.error))).Pairwise
      (fun a b => (tileAt c a).requestTime ≤ (tileAt c b).requestTime) := by
    haveI : IsTotal Nat (fun a b =>
        (tileAt c a).requestTime ≤ (tileAt c b).requestTime) :=
      ⟨fun a b => le_total _ _⟩
    haveI : IsTrans Nat (fun a b =>
        (tileAt c a).requestTime ≤ (tileAt c b).requestTime) :=
      ⟨fun a b d h1 h2 => le_trans h1 h2⟩
    exact List.sorted_insertionSort _ _
  refine ⟨i4, ?_, ?_, i6, i7⟩
  · exact List.Pairwise.sublist i5.sublist hsorted
  · intro id hid
    exact hnl id (i5.sublist.subset hid)

theorem C3_witness :
    (cleanCache cEx3).tileMap.length ≤ cEx3.targetSize ∨
    ∀ p ∈ (cleanCache cEx3).tileMap, (tileAt cEx3 p.2).state = TileState.loading :=
  (C3_eviction cEx3 (by decide)).2.2.2.2

/-! ## purge loop analysis -/

theorem purgeLoop_nil (tiles : List Tile) (cutoff : Int) (m : List (Key × Nat)) :
    purgeLoop tiles cutoff [] m = ([], m, []) := rfl

theorem purgeLoop_cons_old {tiles : List Tile} {cutoff : Int} {id : Nat}
    (h : (tiles.getD id default).requestTime < cutoff)
    (rest : List Nat) (m : List (Key × Nat)) :
    purgeLoop tiles cutoff (id :: rest) m =
      ((purgeLoop tiles cutoff rest
          (mapRemove m (tiles.getD id default).getKey)).1,
       (purgeLoop tiles cutoff rest
          (mapRemove m (tiles.getD id default).getKey)).2.1,
       id :: (purgeLoop tiles cutoff rest
          (mapRemove m (tiles.getD id default).getKey)).2.2) := by
  simp only [purgeLoop]
  rw [if_pos h]

theorem purgeLoop_cons_fresh {tiles : List Tile} {cutoff : Int} {id : Nat}
    (h : ¬ (tiles.getD id default).requestTime < cutoff)
    (rest : List Nat) (m : List (Key × Nat)) :
    purgeLoop tiles cutoff (id :: rest) m = (id :: rest, m, []) := by
  simp only [purgeLoop]
  rw [if_neg h]

theorem purgeLoop_map_sublist (tiles : List Tile) (cutoff : Int) :
    ∀ (q : List Nat) (m : List (Key × Nat)),
    (purgeLoop tiles cutoff q m).2.1.Sublist m := by
  intro q
  induction q with
  | nil => intro m; rw [purgeLoop_nil]
  | cons id rest ih =>
      intro m
      by_cases h : (tiles.getD id default).requestTime < cutoff
      · rw [purgeLoop_cons_old h]
        exact (ih _).trans (List.filter_sublist m)
      · rw [purgeLoop_cons_fresh h]

theorem purgeLoop_queue_sublist (tiles : List Tile) (cutoff : Int) :
    ∀ (q : List Nat) (m : List (Key × Nat)),
    (purgeLoop tiles cutoff q m).1.Sublist q := by
  intro q
  induction q with
  | nil => intro m; rw [purgeLoop_nil]
  | cons id rest ih =>
      intro m
      by_cases h : (tiles.getD id default).requestTime < cutoff
      · rw [purgeLoop_cons_old h]
        exact ((ih _).trans (List.sublist_cons_self id rest))
      · rw [purgeLoop_cons_fresh h]

theorem purgeLoop_spec (tiles : List Tile) (cutoff : Int) :
    ∀ (q : List Nat) (m : List (Key × Nat)),
    MapOK tiles m → QueueOK tiles m q →
    MapOK tiles (purgeLoop tiles cutoff q m).2.1 ∧
    QueueOK tiles (purgeLoop tiles cutoff q m).2.1 (purgeLoop tiles cutoff q m).1 ∧
    (∀ id ∈ (purgeLoop tiles cutoff q m).2.2,
      (tiles.getD id default).requestTime < cutoff) ∧
    (∀ id ∈ (purgeLoop tiles cutoff q m).2.2,
      (∀ p ∈ (purgeLoop tiles cutoff q m).2.1, p.2 ≠ id) ∧
      id ∉ (purgeLoop tiles cutoff q m).1) := by
  intro q
  induction q with
  | nil =>
      intro m hmap hq
      rw [purgeLoop_nil]
      exact ⟨hmap, ⟨fun j hj => absurd hj (by simp), List.nodup_nil⟩,
        by simp, by simp⟩
  | cons id rest ih =>
      intro m hmap hq
      by_cases h : (tiles.getD id default).requestTime < cutoff
      · rw [purgeLoop_cons_old h]
        have hidm : ((tiles.getD id default).getKey, id) ∈ m :=
          lookup_mem (hq.1 id (List.mem_cons_self _ _)).2.2
        have hidnr : id ∉ rest := (List.nodup_cons.1 hq.2).1
        have hmap1 : MapOK tiles (mapRemove m (tiles.getD id default).getKey) :=
          mapOK_mapRemove hmap _
        have hq1 : QueueOK tiles (mapRemove m (tiles.getD id default).getKey)
            rest := by
          constructor
          · intro j hj
            obtain ⟨h1, h2, h3⟩ := hq.1 j (List.mem_cons_of_mem _ hj)
            refine ⟨h1, h2, ?_⟩
            refine mapRemove_lookup_other hmap ⟨_, hidm⟩ h3 ?_
            intro he
            exact hidnr (he ▸ hj)
          · exact (List.nodup_cons.1 hq.2).2
        obtain ⟨i1, i2, i3, i4⟩ := ih _ hmap1 hq1
        refine ⟨i1, i2, ?_, ?_⟩
        · intro i hi
          rcases List.mem_cons.1 hi with rfl | hi2
          · exact h
          · exact i3 i hi2
        · intro i hi
          rcases List.mem_cons.1 hi with rfl | hi2
          · constructor
            · intro p hp
              have hpm1 : p ∈ mapRemove m (tiles.getD i default).getKey :=
                (purgeLoop_map_sublist tiles cutoff rest _).subset hp
              have hpm : p ∈ m := List.mem_of_mem_filter hpm1
              intro he
              have hpk : p.1 = (tiles.getD i default).getKey := by
                rw [(hmap.1 p hpm).2.symm, he]
              have := (List.mem_filter.1 hpm1).2
              rw [hpk] at this
              simp at this
            · intro hmem
              exact hidnr ((purgeLoop_queue_sublist tiles cutoff rest _).subset hmem)
          · exact i4 i hi2
      · rw [purgeLoop_cons_fresh h]
        exact ⟨hmap, hq, by simp, by simp⟩

theorem wf_purgeNotLoadedTiles {c : TileCache} (h : WF c) (now timeLimit : Int) :
    WF (purgeNotLoadedTiles c now timeLimit) := by
  obtain ⟨i1, i2, _⟩ :=
    purgeLoop_spec c.tiles (now - timeLimit) c.loadRequests c.tileMap h.1 h.2
  exact ⟨i1, i2⟩

/-! ## C6 -/

/-- C6: on a well-formed cache, every tile removed by purgeNotLoadedTiles
has requestTime strictly below now - timeLimit, and each removed tile is
afterwards referenced neither by any store entry nor by the queue. -/
theorem C6_purge (c : TileCache) (now timeLimit : Int) (h : WF c) :
    (∀ id ∈ purgeRemoved c now timeLimit,
      (tileAt c id).requestTime < now - timeLimit) ∧
    (∀ id ∈ purgeRemoved c now timeLimit,
      (∀ p ∈ (purgeNotLoadedTiles c now timeLimit).tileMap, p.2 ≠ id) ∧
      id ∉ (purgeNotLoadedTiles c now timeLimit).loadRequests) := by
  obtain ⟨_i1, _i2, i3, i4⟩ :=
    purgeLoop_spec c.tiles (now - timeLimit) c.loadRequests c.tileMap h.1 h.2
  exact ⟨i3, i4⟩

theorem C6_witness :
    (0 : Nat) ∉ (purgeNotLoadedTiles cExQ 100 10).loadRequests :=
  ((C6_purge cExQ 100 10 (by decide)).2 0 (by decide)).2

/-! ## processLoadRequests well-formedness -/

theorem queueOK_sublist {tiles : List Tile} {m : List (Key × Nat)}
    {q q2 : List Nat} (h : QueueOK tiles m q) (hs : q2.Sublist q) :
    QueueOK tiles m q2 :=
  ⟨fun j hj => h.1 j (hs.subset hj), hs.nodup h.2⟩

theorem queueOK_perm {tiles : List Tile} {m : List (Key × Nat)}
    {q q2 : List Nat} (h : QueueOK tiles m q) (hp : q2.Perm q) :
    QueueOK tiles m q2 :=
  ⟨fun j hj => h.1 j (hp.subset hj), hp.nodup_iff.2 h.2⟩

theorem processLoop_ok (accept : Nat → Nat → Bool) :
    ∀ (fuel cIdx : Nat) (tiles : List Tile) (m : List (Key × Nat)) (q : List Nat),
    MapOK tiles m → QueueOK tiles m q →
    MapOK (processLoop accept fuel cIdx tiles q).1 m ∧
    QueueOK (processLoop accept fuel cIdx tiles q).1 m
      (processLoop accept fuel cIdx tiles q).2.1 := by
  intro fuel
  induction fuel with
  | zero =>
      intro cIdx tiles m q hmap hq
      rw [processLoop_zero]
      exact ⟨hmap, hq⟩
  | succ n ih =>
      intro cIdx tiles m q hmap hq
      cases hql : q.getLast? with
      | none =>
          rw [processLoop_none hql]
          exact ⟨hmap, hq⟩
      | some id =>
          cases ha : accept cIdx id with
          | false =>
              rw [processLoop_decline hql ha]
              exact ih _ _ _ _ hmap hq
          | true =>
              rw [processLoop_accept hql ha]
              have hqd : q.dropLast ++ [id] = q := dropLast_append_of_getLast? hql
              have hnotin : id ∉ q.dropLast := by
                have hnd : (q.dropLast ++ [id]).Nodup := by rw [hqd]; exact hq.2
                rw [List.nodup_append] at hnd
                intro hmem
                exact hnd.2.2 hmem (List.mem_singleton.2 rfl)
              have hmap1 : MapOK
                  (tiles.set id { tiles.getD id default with state := TileState.loading })
                  m := mapOK_set_tile hmap id _ rfl
              have hq0 : QueueOK tiles m q.dropLast :=
                queueOK_sublist hq (List.dropLast_sublist q)
              have hq1 : QueueOK
                  (tiles.set id { tiles.getD id default with state := TileState.loading })
                  m q.dropLast := by
                refine queueOK_set_tile hq0 id _ rfl ?_
                intro hin
                exact absurd hin hnotin
              exact ih _ _ _ _ hmap1 hq1

theorem wf_processLoadRequests {c : TileCache} (h : WF c)
    (accept : Nat → Nat → Bool) (counter ttbl : Nat) :
    WF (processLoadRequests c accept counter ttbl).1 := by
  have hqs : QueueOK c.tiles c.tileMap (sortByRequestTime c.tiles c.loadRequests) :=
    queueOK_perm h.2 (List.perm_insertionSort _ c.loadRequests)
  obtain ⟨i1, i2⟩ := processLoop_ok accept
    (min (sortByRequestTime c.tiles c.loadRequests).length (ttbl - counter)) 0
    c.tiles c.tileMap (sortByRequestTime c.tiles c.loadRequests) h.1 hqs
  exact ⟨i1, i2⟩

/-! ## Reachability and C8 -/

theorem wf_step {c c2 : TileCache} (h : WF c) (hs : CacheStep c c2) : WF c2 := by
  cases hs with
  | retrieve zoom x y rt => exact wf_retrieveTile h zoom x y rt
  | update key rt => exact wf_updateRequestTime h key rt
  | clean => exact wf_cleanCache h
  | purge now timeLimit => exact wf_purgeNotLoadedTiles h now timeLimit
  | processLoads accept counter ttbl =>
      exact wf_processLoadRequests h accept counter ttbl
  | setProvider now => exact wf_setTileProvider _ now

theorem reachable_wf {c : TileCache} (h : Reachable c) : WF c := by
  obtain ⟨t0, hr⟩ := h
  induction hr with
  | refl => exact wf_newTileCache t0
  | tail _ hstep ih => exact wf_step ih hstep

/-- C8: in every cache state reachable by the public operations, each tile
in the load-request queue is Preparing, is found in the store under its own
key, and occurs in the queue only once. -/
theorem C8_queue_invariant (c : TileCache) (h : Reachable c) :
    (∀ id ∈ c.loadRequests, (tileAt c id).state = TileState.preparing ∧
      getTileFromCache c ((tileAt c id).getKey) = some id) ∧
    c.loadRequests.Nodup := by
  have hwf := reachable_wf h
  exact ⟨fun id hid => ⟨(hwf.2.1 id hid).2.1, (hwf.2.1 id hid).2.2⟩, hwf.2.2⟩

theorem C8_witness : cExQ.loadRequests.Nodup :=
  (C8_queue_invariant cExQ
    ⟨0, Relation.ReflTransGen.tail
      (Relation.ReflTransGen.single (CacheStep.retrieve (newTileCache 0) 1 2 3 5))
      (CacheStep.retrieve (retrieveTile (newTileCache 0) 1 2 3 5).1 4 0 0 3)⟩).2

end WE
